import Mathlib

/-!
Formal model of the content-based movie recommendation pipeline in
`recomendation.py`: signature construction from cast and crew records
(`get_top_actors`, `get_director`, the `combined_text` column), the ranking
logic of `recommend_movie` (Python stable sort with `reverse=True` and the
slice `[1 : top_n + 1]` with Python negative-index semantics), and the
cosine-similarity matrix produced by `cosine_similarity` on the TF-IDF rows.
Scores are modelled by exact rationals and the similarity matrix by exact
reals, an idealization of the float arithmetic of the original.
-/

namespace MovieRec

/-- Model of one structured record from a cast or crew cell after parsing:
`name` and `job` may be absent; `none` models a missing key, whose lookup
raises `KeyError` in Python. -/
structure PersonRecord where
  name : Option String
  job : Option String

/-- Model of the raw cast or crew cell as seen by `ast.literal_eval`: the
call either raises on malformed text or yields a list of records. -/
inductive RawField where
  | malformed : RawField
  | parsed : List PersonRecord → RawField

/-- Loop body of `get_top_actors`: append `person["name"]` for each record
in order; a record lacking the name key raises `KeyError`, which the bare
`except` catches, so collection stops and the names gathered so far are
kept. -/
def collectNames : List PersonRecord → List String
  | [] => []
  | p :: ps =>
    match p.name with
    | some n => n :: collectNames ps
    | none => []

/-- Model of `get_top_actors`: parse the cell, walk the first three records
gathering names, and return the space-join of whatever was gathered; a parse
failure leaves the gathered list empty. -/
def get_top_actors : RawField → String
  | RawField.malformed => ""
  | RawField.parsed recs => String.intercalate " " (collectNames (recs.take 3))

/-- Loop of `get_director`: scan crew records in order; a missing job key
raises `KeyError` (caught, giving the empty string); the first record whose
job equals "Director" returns its name, where a missing name also degrades
to the empty string via the same handler. -/
def findDirector : List PersonRecord → String
  | [] => ""
  | p :: ps =>
    match p.job with
    | none => ""
    | some j =>
      if j = "Director" then
        match p.name with
        | some n => n
        | none => ""
      else findDirector ps

/-- Model of `get_director`. -/
def get_director : RawField → String
  | RawField.malformed => ""
  | RawField.parsed recs => findDirector recs

/-- Model of the `combined_text` column: overview, cleaned cast and cleaned
crew joined by single spaces. -/
def combined_text (overview : String) (cast crew : RawField) : String :=
  overview ++ " " ++ get_top_actors cast ++ " " ++ get_director crew

/-- Sentinel list returned by `recommend_movie` for an unknown title. -/
def notFoundResult : List String := ["Movie not found in database"]

/-- Model of `movies[movies["title"] == movie_name].index[0]`: position of
the first row whose title equals the query title. -/
def queryIndex (titles : List String) (movie_name : String) : Nat :=
  titles.findIdx (fun t => t == movie_name)

/-- One step of the stable descending sort performed by Python
`sorted(..., key=lambda x: x[1], reverse=True)`: the inserted pair goes in
front of the first pair whose key is not larger than its own, so pairs that
came earlier in the input stay first among equal keys. -/
def insertDesc (x : Nat × ℚ) : List (Nat × ℚ) → List (Nat × ℚ)
  | [] => [x]
  | y :: ys => if x.2 < y.2 then y :: insertDesc x ys else x :: y :: ys

/-- Stable descending sort on (index, score) pairs, the model of Python
`sorted` with `reverse=True` (stable: equal keys keep input order). -/
def sortDesc : List (Nat × ℚ) → List (Nat × ℚ)
  | [] => []
  | x :: xs => insertDesc x (sortDesc xs)

/-- Python slice `l[1 : stop]` for an arbitrary integer stop: a negative
stop counts from the end of the list, then the stop is clamped to
`[0, len(l)]`. -/
def pySliceFrom1 {α : Type*} (l : List α) (stop : Int) : List α :=
  let n : Int := l.length
  let stop1 : Int := if stop < 0 then stop + n else stop
  let stop2 : Int := max 0 (min stop1 n)
  (l.take stop2.toNat).drop 1

/-- Model of `recommend_movie`: the unknown-title test on the title column,
lookup of the first matching row, Python stable descending sort of the
enumerated similarity row, the slice `[1 : top_n + 1]`, and title lookup of
the surviving indices. -/
def recommend_movie (titles : List String) (sim : List (List ℚ))
    (movie_name : String) (top_n : Int) : List String :=
  if movie_name ∈ titles then
    (pySliceFrom1
      (sortDesc ((sim.getD (queryIndex titles movie_name) []).enum))
      (top_n + 1)).map (fun p => titles.getD p.1 "")
  else notFoundResult

/-- Dot product of two rows. -/
def dotl (v w : List ℝ) : ℝ := (List.zipWith (fun a b => a * b) v w).sum

/-- Row normalization performed inside sklearn `cosine_similarity`: divide
by the Euclidean norm, a zero norm being replaced by 1 so that an all-zero
row stays all-zero instead of producing NaN. -/
noncomputable def normalizeRow (v : List ℝ) : List ℝ :=
  v.map (fun x => x / if Real.sqrt (dotl v v) = 0 then 1 else Real.sqrt (dotl v v))

/-- Model of `similarity_matrix = cosine_similarity(tfidf_matrix)`:
normalize every row, then take all pairwise dot products. -/
noncomputable def similarity_matrix (rows : List (List ℝ)) : List (List ℝ) :=
  rows.map (fun v => rows.map (fun w => dotl (normalizeRow v) (normalizeRow w)))

/-! Claims about the signature builder. -/

/-- C7: a cast or crew cell whose encoding fails to parse contributes the
empty string for its segment and no exception escapes (the model functions
are total), so when both cells are malformed the signature is the
description followed by the two empty segments joined by single spaces. -/
theorem malformed_fields_degrade (overview : String) :
    get_top_actors RawField.malformed = "" ∧
    get_director RawField.malformed = "" ∧
    combined_text overview RawField.malformed RawField.malformed =
      overview ++ " " ++ "" ++ " " ++ "" :=
  ⟨rfl, rfl, rfl⟩

/-- C8: on a well-formed crew record list, where every record carries a name
and a job, `get_director` returns the name of the first record in list order
whose job equals exactly the case-sensitive string "Director", and the empty
string when no record matches. -/
theorem get_director_first_match (recs : List PersonRecord)
    (h : ∀ p ∈ recs, p.name.isSome ∧ p.job.isSome) :
    get_director (RawField.parsed recs) =
      ((recs.find? (fun p => p.job == some "Director")).map
        (fun p => p.name.getD "")).getD "" := by
  induction recs with
  | nil => rfl
  | cons p ps ih =>
    obtain ⟨⟨hn, hj⟩, hps⟩ := List.forall_mem_cons.mp h
    obtain ⟨j, hj'⟩ := Option.isSome_iff_exists.mp hj
    obtain ⟨n, hn'⟩ := Option.isSome_iff_exists.mp hn
    by_cases hdir : j = "Director"
    · subst hdir
      simp [get_director, findDirector, hj', hn', List.find?_cons]
    · have : get_director (RawField.parsed (p :: ps)) =
          get_director (RawField.parsed ps) := by
        simp [get_director, findDirector, hj', hdir]
      rw [this, ih hps]
      have hfind : (p.job == some "Director") = false := by
        simp [hj', hdir]
      simp [List.find?_cons, hfind]

/-- C8 witness: a concrete crew list whose second record is the first
Director. -/
theorem get_director_first_match_witness :
    (∀ p ∈ [PersonRecord.mk (some "Alice") (some "Producer"),
            PersonRecord.mk (some "Bob") (some "Director"),
            PersonRecord.mk (some "Carol") (some "Director")],
        p.name.isSome ∧ p.job.isSome) ∧
    get_director (RawField.parsed
        [PersonRecord.mk (some "Alice") (some "Producer"),
         PersonRecord.mk (some "Bob") (some "Director"),
         PersonRecord.mk (some "Carol") (some "Director")]) =
      (([PersonRecord.mk (some "Alice") (some "Producer"),
         PersonRecord.mk (some "Bob") (some "Director"),
         PersonRecord.mk (some "Carol") (some "Director")].find?
          (fun p => p.job == some "Director")).map
        (fun p => p.name.getD "")).getD "" :=
  ⟨by decide, get_director_first_match _ (by decide)⟩

/-- Helper for C10: walking records whose names are all present collects
exactly those names, and a nameless record stops the walk. -/
theorem collectNames_append_none (pre : List PersonRecord)
    (bad : PersonRecord) (rest : List PersonRecord)
    (hpre : ∀ p ∈ pre, p.name.isSome) (hbad : bad.name = none) :
    collectNames (pre ++ bad :: rest) = pre.map (fun p => p.name.getD "") := by
  induction pre with
  | nil => simp [collectNames, hbad]
  | cons p ps ih =>
    obtain ⟨hp, hps⟩ := List.forall_mem_cons.mp hpre
    obtain ⟨n, hn⟩ := Option.isSome_iff_exists.mp hp
    simp [collectNames, hn, ih hps]

/-- C10: when the cast cell parses but a record among the first three lacks
the name key, `get_top_actors` returns the space-join of the names collected
before the failing record, a possibly non-empty partial contribution, and
the remaining records are skipped. -/
theorem get_top_actors_partial (pre rest : List PersonRecord)
    (bad : PersonRecord) (hpre : ∀ p ∈ pre, p.name.isSome)
    (hbad : bad.name = none) (hlen : pre.length < 3) :
    get_top_actors (RawField.parsed (pre ++ bad :: rest)) =
      String.intercalate " " (pre.map (fun p => p.name.getD "")) := by
  have htake : (pre ++ bad :: rest).take 3 =
      pre ++ (bad :: rest).take (3 - pre.length) := by
    rw [List.take_append_eq_append_take, List.take_of_length_le (le_of_lt hlen)]
  obtain ⟨k, hk⟩ : ∃ k, 3 - pre.length = k + 1 := ⟨2 - pre.length, by omega⟩
  rw [get_top_actors, htake, hk, List.take_cons,
    collectNames_append_none pre bad _ hpre hbad]
  omega

/-- C10 witness: one named record, then a nameless one, then another named
record; the result is the first name alone. -/
theorem get_top_actors_partial_witness :
    ((PersonRecord.mk none none).name = none ∧
      [PersonRecord.mk (some "Sam") none].length < 3) ∧
    get_top_actors (RawField.parsed
        ([PersonRecord.mk (some "Sam") none] ++
          PersonRecord.mk none none :: [PersonRecord.mk (some "Zoe") none])) =
      String.intercalate " "
        ([PersonRecord.mk (some "Sam") none].map (fun p => p.name.getD "")) :=
  ⟨⟨rfl, by decide⟩,
    get_top_actors_partial _ _ _ (by decide) rfl (by decide)⟩

/-! Properties of the stable descending sort used by the recommender. -/

/-- Ranking order realized by the recommender sort: strictly larger score
first, equal scores broken by ascending catalog index. -/
def rankOrder (a b : Nat × ℚ) : Prop :=
  b.2 < a.2 ∨ (a.2 = b.2 ∧ a.1 < b.1)

/-- Membership through one insertion step. -/
theorem mem_insertDesc {z x : Nat × ℚ} {l : List (Nat × ℚ)} :
    z ∈ insertDesc x l ↔ z = x ∨ z ∈ l := by
  induction l with
  | nil => simp [insertDesc]
  | cons y ys ih =>
    by_cases h : x.2 < y.2
    · simp only [insertDesc, if_pos h, List.mem_cons, ih]
      tauto
    · simp only [insertDesc, if_neg h, List.mem_cons]

/-- Inserting permutes with consing. -/
theorem insertDesc_perm (x : Nat × ℚ) (l : List (Nat × ℚ)) :
    (insertDesc x l).Perm (x :: l) := by
  induction l with
  | nil => exact List.Perm.refl _
  | cons y ys ih =>
    by_cases h : x.2 < y.2
    · rw [insertDesc, if_pos h]
      exact (ih.cons y).trans (List.Perm.swap x y ys)
    · rw [insertDesc, if_neg h]

/-- The sort is a permutation of its input. -/
theorem sortDesc_perm (l : List (Nat × ℚ)) : (sortDesc l).Perm l := by
  induction l with
  | nil => exact List.Perm.refl _
  | cons x xs ih =>
    exact (insertDesc_perm x (sortDesc xs)).trans (ih.cons x)

theorem sortDesc_length (l : List (Nat × ℚ)) :
    (sortDesc l).length = l.length :=
  (sortDesc_perm l).length_eq

/-- Inserting a pair whose index is below every tying index preserves the
ranking order. -/
theorem pairwise_insertDesc {x : Nat × ℚ} {l : List (Nat × ℚ)}
    (hl : List.Pairwise rankOrder l)
    (hties : ∀ y ∈ l, y.2 = x.2 → x.1 < y.1) :
    List.Pairwise rankOrder (insertDesc x l) := by
  induction l with
  | nil => simp [insertDesc]
  | cons y ys ih =>
    obtain ⟨hy, hys⟩ := List.pairwise_cons.mp hl
    by_cases h : x.2 < y.2
    · rw [insertDesc, if_pos h]
      refine List.pairwise_cons.mpr ⟨?_, ?_⟩
      · intro w hw
        rcases mem_insertDesc.mp hw with rfl | hw'
        · exact Or.inl h
        · exact hy w hw'
      · exact ih hys (fun z hz hz2 => hties z (List.mem_cons_of_mem _ hz) hz2)
    · rw [insertDesc, if_neg h]
      refine List.pairwise_cons.mpr ⟨?_, hl⟩
      intro w hw
      rcases List.mem_cons.mp hw with rfl | hw'
      · rcases lt_or_eq_of_le (not_lt.mp h) with hlt | heq
        · exact Or.inl hlt
        · exact Or.inr ⟨heq.symm, hties w (List.mem_cons_self w ys) heq⟩
      · rcases hy w hw' with h1 | h2
        · exact Or.inl (lt_of_lt_of_le h1 (not_lt.mp h))
        · rcases lt_or_eq_of_le (le_of_eq h2.1.symm |>.trans (not_lt.mp h)) with hlt | heq
          · exact Or.inl hlt
          · exact Or.inr ⟨heq.symm, hties w (List.mem_cons_of_mem _ hw') heq⟩

/-- Indices in `enumFrom` are bounded below by the start. -/
theorem le_fst_of_mem_enumFrom {α : Type*} {n : Nat} {l : List α}
    {y : Nat × α} (h : y ∈ l.enumFrom n) : n ≤ y.1 := by
  induction l generalizing n with
  | nil => cases h
  | cons a l ih =>
    rcases List.mem_cons.mp h with rfl | h'
    · exact le_refl _
    · exact le_of_lt (lt_of_lt_of_le (Nat.lt_succ_self n) (ih h'))

/-- Indices in `enumFrom` are strictly increasing. -/
theorem pairwise_fst_enumFrom {α : Type*} (n : Nat) (l : List α) :
    List.Pairwise (fun a b : Nat × α => a.1 < b.1) (l.enumFrom n) := by
  induction l generalizing n with
  | nil => simp
  | cons a l ih =>
    refine List.pairwise_cons.mpr ⟨?_, ih (n + 1)⟩
    intro y hy
    exact lt_of_lt_of_le (Nat.lt_succ_self n) (le_fst_of_mem_enumFrom hy)

/-- Indices in `enum` are strictly increasing. -/
theorem pairwise_fst_enum {α : Type*} (l : List α) :
    List.Pairwise (fun a b : Nat × α => a.1 < b.1) l.enum :=
  pairwise_fst_enumFrom 0 l

/-- Sorting a list with strictly increasing indices, as the enumerated
similarity row is, yields the ranking order: stability turns input order
into the ascending-index tie-break. -/
theorem sortDesc_pairwise {l : List (Nat × ℚ)}
    (h : List.Pairwise (fun a b : Nat × ℚ => a.1 < b.1) l) :
    List.Pairwise rankOrder (sortDesc l) := by
  induction l with
  | nil => simp [sortDesc]
  | cons x xs ih =>
    obtain ⟨hx, hxs⟩ := List.pairwise_cons.mp h
    rw [sortDesc]
    refine pairwise_insertDesc (ih hxs) ?_
    intro y hy _
    exact hx y ((sortDesc_perm xs).subset hy)

/-- C4: the ranking used by recommend_movie, the stable descending sort of
the enumerated similarity row, is a permutation of the scored entries that
is ordered by descending similarity score with ties broken by ascending
catalog index; the ranking is a pure function of the row, so identical
input yields identical recommendation order. -/
theorem sortDesc_ranking (row : List ℚ) :
    (sortDesc row.enum).Perm row.enum ∧
    List.Pairwise rankOrder (sortDesc row.enum) :=
  ⟨sortDesc_perm row.enum, sortDesc_pairwise (pairwise_fst_enum row)⟩

/-! Properties of the title lookup. -/

theorem queryIndex_lt_length {titles : List String} {name : String}
    (h : name ∈ titles) : queryIndex titles name < titles.length :=
  List.findIdx_lt_length_of_exists ⟨name, h, by simp⟩

theorem getD_queryIndex {titles : List String} {name : String}
    (h : name ∈ titles) : titles.getD (queryIndex titles name) "" = name := by
  induction titles with
  | nil => cases h
  | cons t ts ih =>
    by_cases ht : t = name
    · simp [queryIndex, List.findIdx_cons, ht]
    · have hname : name ∈ ts := by
        rcases List.mem_cons.mp h with h' | h'
        · exact absurd h'.symm ht
        · exact h'
      have hb : (t == name) = false := by simp [ht]
      simpa [queryIndex, List.findIdx_cons, hb] using ih hname

theorem queryIndex_min {titles : List String} {name : String} (j : Nat)
    (hj : j < queryIndex titles name) : titles.getD j "" ≠ name := by
  induction titles generalizing j with
  | nil => simp [queryIndex, List.findIdx_nil] at hj
  | cons t ts ih =>
    by_cases ht : t = name
    · simp [queryIndex, List.findIdx_cons, ht] at hj
    · have hb : (t == name) = false := by simp [ht]
      rw [queryIndex, List.findIdx_cons, hb] at hj
      cases j with
      | zero => simpa using ht
      | succ j =>
        simp only [List.getD_cons_succ]
        exact ih j (by simpa [queryIndex] using Nat.lt_of_succ_lt_succ hj)

/-- C9: when the catalog has several rows with the query title, the row
index used by recommend_movie is the first match in catalog order: it is in
range, its title equals the query, and every earlier row has a different
title. -/
theorem queryIndex_first_match (titles : List String) (movie_name : String)
    (h : movie_name ∈ titles) :
    queryIndex titles movie_name < titles.length ∧
    titles.getD (queryIndex titles movie_name) "" = movie_name ∧
    ∀ j < queryIndex titles movie_name, titles.getD j "" ≠ movie_name :=
  ⟨queryIndex_lt_length h, getD_queryIndex h, fun j hj => queryIndex_min j hj⟩

/-- C9 witness: a catalog with a duplicated title; the lookup lands on
index 0. -/
theorem queryIndex_first_match_witness :
    "Alpha" ∈ ["Alpha", "Alpha"] ∧
    (queryIndex ["Alpha", "Alpha"] "Alpha" < ["Alpha", "Alpha"].length ∧
      ["Alpha", "Alpha"].getD (queryIndex ["Alpha", "Alpha"] "Alpha") "" =
        "Alpha" ∧
      ∀ j < queryIndex ["Alpha", "Alpha"] "Alpha",
        ["Alpha", "Alpha"].getD j "" ≠ "Alpha") :=
  ⟨by decide, queryIndex_first_match _ _ (by decide)⟩

/-! Claims about the not-found branch. -/

/-- C2 (amended): for every catalog, every query title absent from it, and
every topN, recommend_movie returns the fixed non-empty single-element
sentinel list and raises no error; the sentinel is distinguishable from
valid recommendation lists only as long as no catalog title equals the
sentinel string. -/
theorem recommend_movie_not_found (titles : List String)
    (sim : List (List ℚ)) (movie_name : String) (top_n : Int)
    (h : movie_name ∉ titles) :
    recommend_movie titles sim movie_name top_n = notFoundResult ∧
    notFoundResult ≠ ([] : List String) :=
  ⟨by simp [recommend_movie, h], by simp [notFoundResult]⟩

/-- C2 amended witness: a concrete unknown title. -/
theorem recommend_movie_not_found_witness :
    "Nonexistent Movie" ∉ ["Avatar"] ∧
    (recommend_movie ["Avatar"] [[1]] "Nonexistent Movie" 5 = notFoundResult ∧
      notFoundResult ≠ ([] : List String)) :=
  ⟨by decide, recommend_movie_not_found _ _ _ _ (by decide)⟩

/-- C2 counterexample: a catalog whose first title equals the sentinel
string; a valid lookup of the other title with topN = 1 returns exactly the
sentinel list, so a caller cannot tell the not-found outcome of an absent
title apart from this valid recommendation list. -/
theorem notFound_indistinguishable_cex :
    "Beta" ∉ ["Movie not found in database", "Alpha"] ∧
    "Alpha" ∈ ["Movie not found in database", "Alpha"] ∧
    recommend_movie ["Movie not found in database", "Alpha"]
        [[1, 0], [0, (1:ℚ)]] "Beta" 1 =
      recommend_movie ["Movie not found in database", "Alpha"]
        [[1, 0], [0, (1:ℚ)]] "Alpha" 1 := by
  decide

/-! Length of the returned slice. -/

/-- Unfolding of the found branch of recommend_movie. -/
theorem recommend_movie_found (titles : List String) (sim : List (List ℚ))
    (movie_name : String) (top_n : Int) (h : movie_name ∈ titles) :
    recommend_movie titles sim movie_name top_n =
      (pySliceFrom1
        (sortDesc ((sim.getD (queryIndex titles movie_name) []).enum))
        (top_n + 1)).map (fun p => titles.getD p.1 "") := by
  simp [recommend_movie, h]

theorem length_pySliceFrom1 {α : Type*} (l : List α) (stop : Int) :
    (pySliceFrom1 l stop).length =
      (max 0 (min (if stop < 0 then stop + (l.length : Int) else stop)
        (l.length : Int))).toNat - 1 := by
  simp only [pySliceFrom1, List.length_drop, List.length_take]
  omega

/-- C3 counterexample: topN = -2 on a three-item catalog with the query
present: Python wraps the negative slice end around to the other end of the
ranked list, so the result is a non-empty list, not the empty one the claim
requires. -/
theorem nonpos_topn_cex :
    "A" ∈ ["A", "B", "C"] ∧ (-2 : Int) ≤ 0 ∧
    recommend_movie ["A", "B", "C"]
      [[1, 0, 0], [0, 1, 0], [0, 0, (1:ℚ)]] "A" (-2) = ["B"] := by
  decide

/-- C3 (amended): for a present query title, recommend_movie returns the
empty result without error when topN is 0 or -1, and likewise when
topN ≤ -N for a catalog of N items; for the remaining negative values the
Python slice end wraps around and the call returns N + topN titles instead
of an empty result. -/
theorem recommend_movie_nonpos_topn (titles : List String)
    (sim : List (List ℚ)) (movie_name : String) (top_n : Int)
    (hmem : movie_name ∈ titles)
    (hrow : (sim.getD (queryIndex titles movie_name) []).length =
      titles.length)
    (h : top_n = 0 ∨ top_n = -1 ∨ top_n + (titles.length : Int) ≤ 0) :
    recommend_movie titles sim movie_name top_n = [] := by
  rw [recommend_movie_found titles sim movie_name top_n hmem]
  apply List.eq_nil_of_length_eq_zero
  rw [List.length_map, length_pySliceFrom1, sortDesc_length,
    List.enum_length, hrow]
  have hN : 0 < titles.length := List.length_pos.mpr (List.ne_nil_of_mem hmem)
  omega

/-- C3 amended witness: topN = 0 on a one-item catalog gives the empty
list. -/
theorem recommend_movie_nonpos_topn_witness :
    ("Avatar" ∈ ["Avatar"] ∧
      ([[(1:ℚ)]].getD (queryIndex ["Avatar"] "Avatar") []).length =
        ["Avatar"].length) ∧
    recommend_movie ["Avatar"] [[(1:ℚ)]] "Avatar" 0 = [] :=
  ⟨⟨by decide, by decide⟩,
    recommend_movie_nonpos_topn _ _ _ _ (by decide) (by decide) (Or.inl rfl)⟩

/-- C5: for every catalog, every present query title and every positive
topN, recommend_movie returns exactly min(topN, N-1) titles, hence at most
topN, with no padding and no error when fewer are available. -/
theorem recommend_movie_count (titles : List String) (sim : List (List ℚ))
    (movie_name : String) (top_n : Int) (hmem : movie_name ∈ titles)
    (hrow : (sim.getD (queryIndex titles movie_name) []).length =
      titles.length)
    (htop : 0 < top_n) :
    (recommend_movie titles sim movie_name top_n).length =
      min top_n.toNat (titles.length - 1) := by
  rw [recommend_movie_found titles sim movie_name top_n hmem,
    List.length_map, length_pySliceFrom1, sortDesc_length,
    List.enum_length, hrow]
  have hN : 0 < titles.length := List.length_pos.mpr (List.ne_nil_of_mem hmem)
  omega

/-- C5 witness: topN = 5 on a three-item catalog returns two titles. -/
theorem recommend_movie_count_witness :
    ("A" ∈ ["A", "B", "C"] ∧ (0:Int) < 5) ∧
    (recommend_movie ["A", "B", "C"]
        [[1, 0, 0], [0, 1, 0], [0, 0, (1:ℚ)]] "A" 5).length =
      min (5:Int).toNat (["A", "B", "C"].length - 1) :=
  ⟨⟨by decide, by decide⟩,
    recommend_movie_count _ _ _ _ (by decide) (by decide) (by decide)⟩

/-! The query item and the slice that is meant to skip it. -/

/-- Two members of a list with strictly increasing indices that share an
index are the same pair. -/
theorem eq_of_mem_fst_eq {l : List (Nat × ℚ)}
    (hfst : List.Pairwise (fun a b : Nat × ℚ => a.1 < b.1) l)
    {z x : Nat × ℚ} (hz : z ∈ l) (hx : x ∈ l) (h : z.1 = x.1) : z = x := by
  induction l with
  | nil => cases hz
  | cons a l ih =>
    obtain ⟨ha, hl⟩ := List.pairwise_cons.mp hfst
    rcases List.mem_cons.mp hz with rfl | hz'
    · rcases List.mem_cons.mp hx with rfl | hx'
      · rfl
      · exact absurd h (ne_of_lt (ha x hx'))
    · rcases List.mem_cons.mp hx with rfl | hx'
      · exact absurd h (ne_of_gt (ha z hz'))
      · exact ih hl hz' hx'

/-- The sorted enumerated row carries each catalog index at most once. -/
theorem nodup_fst_sortDesc_enum (row : List ℚ) :
    ((sortDesc row.enum).map Prod.fst).Nodup := by
  have h1 : (row.enum.map Prod.fst).Nodup :=
    List.pairwise_map.mpr ((pairwise_fst_enum row).imp (fun h => ne_of_lt h))
  exact (((sortDesc_perm row.enum).map Prod.fst).nodup_iff).mpr h1

/-- A member whose score strictly dominates every other index is the head
of the sorted list. -/
theorem sortDesc_head (l : List (Nat × ℚ)) (x : Nat × ℚ) (hx : x ∈ l)
    (hfst : List.Pairwise (fun a b : Nat × ℚ => a.1 < b.1) l)
    (hmax : ∀ y ∈ l, y.1 ≠ x.1 → y.2 < x.2) :
    ∃ zs, sortDesc l = x :: zs := by
  have hperm := sortDesc_perm l
  have hxmem : x ∈ sortDesc l := hperm.mem_iff.mpr hx
  obtain ⟨z, zs, hzzs⟩ : ∃ z zs, sortDesc l = z :: zs := by
    cases hsort : sortDesc l with
    | nil => rw [hsort] at hxmem; cases hxmem
    | cons z zs => exact ⟨z, zs, rfl⟩
  have hpair := sortDesc_pairwise hfst
  rw [hzzs] at hpair hxmem
  have hz_mem_l : z ∈ l := hperm.mem_iff.mp (hzzs ▸ List.mem_cons_self z zs)
  rcases List.mem_cons.mp hxmem with rfl | hx_tail
  · exact ⟨zs, hzzs⟩
  · have hr := (List.pairwise_cons.mp hpair).1 x hx_tail
    by_cases hzx : z.1 = x.1
    · have hzx' : z = x := eq_of_mem_fst_eq hfst hz_mem_l hx hzx
      exact ⟨zs, hzx' ▸ hzzs⟩
    · have hlt := hmax z hz_mem_l hzx
      rcases hr with h1 | h2
      · exact absurd h1 (lt_asymm hlt)
      · exact absurd h2.1 (ne_of_lt hlt)

/-- Elements surviving the slice `[1 : stop]` come from the tail. -/
theorem pySliceFrom1_subset {α : Type*} {l : List α} {stop : Int} {p : α}
    (h : p ∈ pySliceFrom1 l stop) : p ∈ l.drop 1 := by
  simp only [pySliceFrom1] at h
  rw [List.drop_take] at h
  exact List.mem_of_mem_take h

/-- C1 counterexample: two catalog items with identical signature vectors
tie at similarity score 1; querying the second title, the first item takes
rank 0 of the stable sort, the slice `[1 : top_n + 1]` keeps the query item
itself, and the query title appears in the output. -/
theorem query_title_in_output_cex :
    "B" ∈ recommend_movie ["A", "B"] [[1, 1], [1, (1:ℚ)]] "B" 5 := by
  decide

/-- C1 (amended): provided the query row's self-similarity score strictly
exceeds its score against every other catalog index (no tie at the top, as
with duplicate or identical-signature rows) and no other row carries the
query title, the output of recommend_movie never contains the query title,
for every topN. -/
theorem recommend_movie_excludes_query (titles : List String)
    (sim : List (List ℚ)) (movie_name : String) (top_n : Int)
    (hmem : movie_name ∈ titles)
    (hrow : (sim.getD (queryIndex titles movie_name) []).length =
      titles.length)
    (hstrict : ∀ j < titles.length, j ≠ queryIndex titles movie_name →
      (sim.getD (queryIndex titles movie_name) []).getD j 0 <
        (sim.getD (queryIndex titles movie_name) []).getD
          (queryIndex titles movie_name) 0)
    (huniq : ∀ j < titles.length, j ≠ queryIndex titles movie_name →
      titles.getD j "" ≠ movie_name) :
    movie_name ∉ recommend_movie titles sim movie_name top_n := by
  set q := queryIndex titles movie_name with hq
  set row := sim.getD q [] with hrowdef
  have hqlt : q < titles.length := queryIndex_lt_length hmem
  have hqrow : q < row.length := by rw [hrow]; exact hqlt
  set x : Nat × ℚ := (q, row.getD q 0) with hx
  have hxmem : x ∈ row.enum := by
    rw [List.mem_enum_iff_getElem?]
    simp [hx, List.getD_eq_getElem row 0 hqrow, List.getElem?_eq_getElem hqrow]
  have hmax : ∀ y ∈ row.enum, y.1 ≠ x.1 → y.2 < x.2 := by
    intro y hy hne
    have h1 : row[y.1]? = some y.2 := List.mem_enum_iff_getElem?.mp hy
    have h2 : y.1 < row.length := (List.getElem?_eq_some.mp h1).1
    have h3 : row.getD y.1 0 = y.2 := by
      rw [List.getD_eq_getElem row 0 h2, ← Option.some_inj, ← h1,
        List.getElem?_eq_getElem h2]
    have h4 := hstrict y.1 (by rw [← hrow]; exact h2) hne
    rw [h3] at h4
    exact h4
  obtain ⟨zs, hzs⟩ :=
    sortDesc_head row.enum x hxmem (pairwise_fst_enum row) hmax
  have hnodup := nodup_fst_sortDesc_enum row
  rw [hzs] at hnodup
  have hqzs : ∀ w ∈ zs, w.1 ≠ q := by
    intro w hw hwq
    have hxne : x.1 ∉ zs.map Prod.fst :=
      (List.nodup_cons.mp (by simpa using hnodup)).1
    have hx1 : x.1 = q := rfl
    exact hxne (by rw [hx1, ← hwq]; exact List.mem_map_of_mem Prod.fst hw)
  intro hout
  rw [recommend_movie_found titles sim movie_name top_n hmem] at hout
  obtain ⟨p, hp, hptitle⟩ := List.mem_map.mp hout
  have hpzs : p ∈ zs := by
    have := pySliceFrom1_subset hp
    rw [hzs] at this
    simpa using this
  have hpq : p.1 ≠ q := hqzs p hpzs
  have hplt : p.1 < titles.length := by
    have hpe : p ∈ row.enum :=
      (sortDesc_perm row.enum).subset (hzs ▸ List.mem_cons_of_mem x hpzs)
    have := (List.getElem?_eq_some.mp (List.mem_enum_iff_getElem?.mp hpe)).1
    rw [← hrow]; exact this
  exact huniq p.1 hplt hpq hptitle

/-- C1 amended witness: a two-item catalog with distinct titles and no
score tie; the query title is absent from the output. -/
theorem recommend_movie_excludes_query_witness :
    "Avatar" ∈ ["Avatar", "Alien"] ∧
    "Avatar" ∉ recommend_movie ["Avatar", "Alien"]
      [[1, 0], [0, (1:ℚ)]] "Avatar" 5 :=
  ⟨by decide, recommend_movie_excludes_query _ _ _ _ (by decide) (by decide)
    (by decide) (by decide)⟩

/-! The similarity matrix diagonal. -/

theorem dotl_self_nonneg (v : List ℝ) : 0 ≤ dotl v v := by
  induction v with
  | nil => simp [dotl]
  | cons x xs ih =>
    have h : dotl (x :: xs) (x :: xs) = x * x + dotl xs xs := rfl
    rw [h]
    exact add_nonneg (mul_self_nonneg x) ih

theorem dotl_self_eq_zero_iff (v : List ℝ) :
    dotl v v = 0 ↔ ∀ x ∈ v, x = 0 := by
  induction v with
  | nil => simp [dotl]
  | cons x xs ih =>
    have h : dotl (x :: xs) (x :: xs) = x * x + dotl xs xs := rfl
    rw [h, List.forall_mem_cons, ← ih]
    constructor
    · intro h0
      have h1 := mul_self_nonneg x
      have h2 := dotl_self_nonneg xs
      exact ⟨mul_self_eq_zero.mp (by linarith), by linarith⟩
    · rintro ⟨rfl, h2⟩
      rw [h2]
      simp

theorem dotl_map_div (v : List ℝ) (c : ℝ) :
    dotl (v.map (fun x => x / c)) (v.map (fun x => x / c)) =
      dotl v v / (c * c) := by
  induction v with
  | nil => simp [dotl]
  | cons x xs ih =>
    have h1 : dotl ((x :: xs).map (fun x => x / c))
        ((x :: xs).map (fun x => x / c)) =
        (x / c) * (x / c) +
          dotl (xs.map (fun x => x / c)) (xs.map (fun x => x / c)) := rfl
    have h2 : dotl (x :: xs) (x :: xs) = x * x + dotl xs xs := rfl
    rw [h1, h2, ih, div_mul_div_comm, div_add_div_same]

/-- C6: the diagonal entry of the modelled similarity matrix equals exactly
1 when the row vector has a nonzero coordinate and exactly 0 when the row
vector is all-zero; in the exact real model no NaN can arise, the zero-norm
row being left untouched by the substituted norm 1. -/
theorem similarity_matrix_diag (rows : List (List ℝ)) (i : Nat)
    (h : i < rows.length) :
    ((similarity_matrix rows).getD i []).getD i 0 =
      if ∀ x ∈ rows.getD i [], x = 0 then 0 else 1 := by
  have hlen : i < (similarity_matrix rows).length := by
    simpa [similarity_matrix] using h
  have hstep : ((similarity_matrix rows).getD i []).getD i 0 =
      dotl (normalizeRow (rows.getD i [])) (normalizeRow (rows.getD i [])) := by
    rw [List.getD_eq_getElem _ _ hlen]
    simp only [similarity_matrix, List.getElem_map]
    rw [List.getD_eq_getElem _ _ (by simpa using h), List.getElem_map]
    rw [List.getD_eq_getElem rows [] h]
  rw [hstep]
  set v := rows.getD i [] with hv
  rw [normalizeRow, dotl_map_div]
  by_cases hz : ∀ x ∈ v, x = 0
  · rw [if_pos hz]
    have h0 : dotl v v = 0 := (dotl_self_eq_zero_iff v).mpr hz
    rw [h0]
    simp
  · rw [if_neg hz]
    have h0 : dotl v v ≠ 0 := fun hc => hz ((dotl_self_eq_zero_iff v).mp hc)
    have hpos : 0 < dotl v v :=
      lt_of_le_of_ne (dotl_self_nonneg v) (Ne.symm h0)
    have hs : Real.sqrt (dotl v v) ≠ 0 := by
      rw [Real.sqrt_ne_zero (le_of_lt hpos)]
      exact h0
    rw [if_neg hs, Real.mul_self_sqrt (le_of_lt hpos), div_self h0]

/-- C6 witness: the one-item catalog whose single vector is the nonzero
vector [1] has diagonal similarity 1. -/
theorem similarity_matrix_diag_witness :
    0 < [[(1:ℝ)]].length ∧
    ((similarity_matrix [[(1:ℝ)]]).getD 0 []).getD 0 0 =
      if ∀ x ∈ [[(1:ℝ)]].getD 0 [], x = 0 then 0 else 1 :=
  ⟨by decide, similarity_matrix_diag [[(1:ℝ)]] 0 (by decide)⟩

end MovieRec
